import Mathlib

/-!
Verification development for the completion engine of
`simple-completion-language-server` (`src/lib.rs`).

Modelling conventions, used throughout:

* Buffer text (`ropey::Rope`) is modelled at the character level as `List Char`;
  character indices of the model correspond to ropey char indices.  Byte-level
  facts (UTF-8 byte lengths, Rust `&str` byte slicing in `starts_with`) are
  modelled with Lean's own UTF-8 `String` positions (`String.Pos`,
  `String.utf8ByteSize`), which have the same semantics as Rust byte offsets
  into UTF-8 strings.
* Rust `char::is_alphanumeric` is Unicode-wide and has no executable Lean
  counterpart, so every definition that needs the word-character test takes the
  predicate `w : Char → Bool` as a parameter; theorems quantify over every `w`,
  and concrete witnesses instantiate `w` with `char_is_word`, the ASCII
  fragment of the source predicate (on ASCII input the two agree).
* `caseless::default_caseless_match_str` (Unicode caseless comparison) is
  likewise taken as a parameter `cm : String → String → Bool`; witnesses
  instantiate it with `asciiCaselessMatch`, which agrees with full Unicode
  caseless matching on ASCII input.
* Filesystem interaction (reading a file on save, listing a directory in the
  path provider, reading bibliography files in the citation provider) is
  abstracted: the outcome of the I/O is passed in as data, and the surrounding
  control flow is translated from the source.
* `HashSet<String>` / `HashMap<Url, Document>` iteration has no specified
  order; sets are modelled as duplicate-free lists in insertion order and the
  document map as a list of documents.  No theorem below depends on the
  iteration order of either.
-/

namespace SCLS

/-! ## Word and char-prefix character classes (`lib.rs`, `char_is_word`,
`char_is_char_prefix`).  `char_is_word` is the ASCII fragment of the source
predicate (Rust `is_alphanumeric` is Unicode-wide); definitions take the
predicate as a parameter `w`, see the module docstring. -/

def char_is_word (ch : Char) : Bool :=
  ch.isAlphanum || ch == '_' || ch == '-'

def char_is_char_prefix (ch : Char) : Bool :=
  ch != ' ' && ch != '\n' && ch != '\t'

/-! ## `starts_with` (`lib.rs` lines 132-141).

Rust:
```
if s.len() > source.len() { return false; }
let Some(part) = source.get(..s.len()) else { return false; };
caseless::default_caseless_match_str(part, s)
```
`source.get(..n)` returns `Some` exactly when `n ≤ source.len()` and `n` is a
character boundary; `String.Pos.isValid` is the same boundary test for Lean's
UTF-8 strings.  The caseless comparison is the parameter `cm`. -/

def starts_with (cm : String → String → Bool) (source s : String) : Bool :=
  if s.utf8ByteSize > source.utf8ByteSize then false
  else if String.Pos.isValid source ⟨s.utf8ByteSize⟩ then
    cm (source.extract 0 ⟨s.utf8ByteSize⟩) s
  else false

/-- Executable stand-in for `caseless::default_caseless_match_str`, used only
to instantiate the `cm` parameter in concrete witnesses; on ASCII strings it
agrees with full Unicode caseless matching. -/
def asciiCaselessMatch (a b : String) : Bool :=
  a.data.map Char.toLower == b.data.map Char.toLower

/-! ## Settings (`lib.rs` lines 29-120). -/

structure BackendSettings where
  max_completion_items : Nat
  max_chars_prefix_len : Nat
  min_chars_prefix_len : Nat
  snippets_first : Bool
  snippets_inline_by_word_tail : Bool
  citation_prefix_trigger : String
  citation_bibfile_extract_regexp : String
  feature_words : Bool
  feature_snippets : Bool
  feature_unicode_input : Bool
  feature_paths : Bool
  feature_citations : Bool
deriving DecidableEq, Repr

/-- `PartialBackendSettings` (`lib.rs` lines 47-67).  The `extra` catch-all
field (serde flatten) plays no role in the merge and is omitted. -/
structure PartialBackendSettings where
  max_completion_items : Option Nat
  max_chars_prefix_len : Option Nat
  min_chars_prefix_len : Option Nat
  max_path_chars : Option Nat
  snippets_first : Option Bool
  snippets_inline_by_word_tail : Option Bool
  citation_prefix_trigger : Option String
  citation_bibfile_extract_regexp : Option String
  feature_words : Option Bool
  feature_snippets : Option Bool
  feature_unicode_input : Option Bool
  feature_paths : Option Bool
  feature_citations : Option Bool
deriving DecidableEq, Repr

/-- `impl Default for BackendSettings` (`lib.rs` lines 69-87). -/
def BackendSettings.default : BackendSettings where
  min_chars_prefix_len := 2
  max_completion_items := 100
  max_chars_prefix_len := 64
  snippets_first := false
  snippets_inline_by_word_tail := false
  citation_prefix_trigger := "@"
  citation_bibfile_extract_regexp := "bibliography:\\s*['\"\\[]*([~\\w\\./\\\\-]*)['\"\\]]*"
  feature_words := true
  feature_snippets := true
  feature_unicode_input := false
  feature_paths := false
  feature_citations := false

/-- `BackendSettings::apply_partial_settings` (`lib.rs` lines 89-120),
field for field as the source reads: note that the source fills
`max_chars_prefix_len` from `settings.max_path_chars`, and
`citation_bibfile_extract_regexp` from `settings.citation_prefix_trigger`. -/
def BackendSettings.apply_partial_settings (self : BackendSettings)
    (settings : PartialBackendSettings) : BackendSettings where
  max_completion_items := settings.max_completion_items.getD self.max_completion_items
  max_chars_prefix_len := settings.max_path_chars.getD self.max_chars_prefix_len
  min_chars_prefix_len := settings.min_chars_prefix_len.getD self.min_chars_prefix_len
  snippets_first := settings.snippets_first.getD self.snippets_first
  snippets_inline_by_word_tail :=
    settings.snippets_inline_by_word_tail.getD self.snippets_inline_by_word_tail
  citation_prefix_trigger :=
    settings.citation_prefix_trigger.getD self.citation_prefix_trigger
  citation_bibfile_extract_regexp :=
    settings.citation_prefix_trigger.getD self.citation_bibfile_extract_regexp
  feature_words := settings.feature_words.getD self.feature_words
  feature_snippets := settings.feature_snippets.getD self.feature_snippets
  feature_unicode_input := settings.feature_unicode_input.getD self.feature_unicode_input
  feature_paths := settings.feature_paths.getD self.feature_paths
  feature_citations := settings.feature_citations.getD self.feature_citations

/-- The all-unset partial settings object. -/
def emptyPartialSettings : PartialBackendSettings where
  max_completion_items := none
  max_chars_prefix_len := none
  min_chars_prefix_len := none
  max_path_chars := none
  snippets_first := none
  snippets_inline_by_word_tail := none
  citation_prefix_trigger := none
  citation_bibfile_extract_regexp := none
  feature_words := none
  feature_snippets := none
  feature_unicode_input := none
  feature_paths := none
  feature_citations := none

/-! ## Documents and `save_doc` (`lib.rs` lines 386-390 and 446-458). -/

structure Document where
  uri : String
  text : List Char
  language_id : String
deriving DecidableEq, Repr

def updateDocText (docs : List Document) (uri : String) (t : List Char) :
    List Document :=
  docs.map fun d => if d.uri = uri then { d with text := t } else d

/-- `BackendState::save_doc` (`lib.rs` lines 446-458).  The synchronous
`File::open` + `Rope::from_reader` pair is abstracted as `fileContent`; the
source assigns `doc.text` only after both succeed (the `?` operators return
before the assignment), so an error leaves every document unchanged — the
returned `Bool` is `false` exactly when the source returns `Err`. -/
def save_doc (docs : List Document) (uri : String) (textParam : Option String)
    (fileContent : Except Unit String) : List Document × Bool :=
  if docs.any fun d => d.uri == uri then
    match textParam with
    | some t => (updateDocText docs uri t.data, true)
    | none =>
      match fileContent with
      | .ok content => (updateDocText docs uri content.data, true)
      | .error _ => (docs, false)
  else (docs, false)

/-! ## The rope chunk reader (`impl std::io::Read for RopeReader`, `lib.rs`
lines 254-298).

Each `read` call takes the next internal rope chunk, prepends the buffered
tail from the previous call, and — when the chunk has a last non-word
character at a nonzero byte position — holds back the part of the chunk from
that character on as the new tail.  `rope_reader_read w tail chunks` returns
the list of byte blocks the reader emits, one entry per `read` call (and the
final flush of the tail at end of stream); ropey chunks are valid UTF-8, so
blocks are modelled as `List Char` and byte positions as char positions
(position 0 is byte 0 in both). -/

def lastNonWordPos (w : Char → Bool) : List Char → Option Nat
  | [] => none
  | c :: cs =>
    match lastNonWordPos w cs with
    | some i => some (i + 1)
    | none => if w c then none else some 0

def rope_reader_read (w : Char → Bool) : List Char → List (List Char) → List (List Char)
  | tail, [] => if tail.isEmpty then [] else [tail]
  | tail, chunk :: rest =>
    match lastNonWordPos w chunk with
    | some i =>
      if i ≠ 0 then (tail ++ chunk.take i) :: rope_reader_read w (chunk.drop i) rest
      else (tail ++ chunk) :: rope_reader_read w [] rest
    | none => (tail ++ chunk) :: rope_reader_read w [] rest

/-- No run of word characters crosses the boundary of two adjacent emitted
blocks: the earlier block may not end in a word character while the next one
starts with one. -/
def boundary_ok (w : Char → Bool) (a b : List Char) : Bool :=
  match a.getLast?, b.head? with
  | some x, some y => !(w x && w y)
  | _, _ => true

def no_word_split (w : Char → Bool) : List (List Char) → Bool
  | a :: b :: rest => boundary_ok w a b && no_word_split w (b :: rest)
  | _ => true

/-! ## Rope index operations (ropey) used by `change_doc` and `get_prefix`.

`try_line_to_char` follows ropey: valid for `line_idx ≤ len_lines()` where
`len_lines` counts line-feed breaks plus one, and the one-past-the-end line
index maps to the one-past-the-end char index.  `try_remove` / `try_insert`
error out (instead of mutating) when the char range is out of bounds or
inverted. -/

def lineStarts (text : List Char) : List Nat :=
  0 :: ((text.enum.filter fun p => p.2 == '\n').map fun p => p.1 + 1)

def try_line_to_char (text : List Char) (line : Nat) : Except Unit Nat :=
  match (lineStarts text).get? line with
  | some i => .ok i
  | none => if line = (lineStarts text).length then .ok text.length else .error ()

def try_remove_range (text : List Char) (s e : Nat) : Except Unit (List Char) :=
  if s ≤ e ∧ e ≤ text.length then .ok (text.take s ++ text.drop e) else .error ()

def try_remove_from (text : List Char) (s : Nat) : Except Unit (List Char) :=
  if s ≤ text.length then .ok (text.take s) else .error ()

def try_insert (text : List Char) (pos : Nat) (ins : List Char) :
    Except Unit (List Char) :=
  if pos ≤ text.length then .ok (text.take pos ++ ins ++ text.drop pos) else .error ()

/-! ## `change_doc` (`lib.rs` lines 460-502).

A content change carries an optional range (start and end position, each a
line/character pair) and the new text.  The source resolves both positions to
char indices, then: start `Ok` and end `Err` removes from start to the end of
the buffer and inserts; both `Ok` removes the span and inserts; start `Err`
replaces the whole document with the change text.  A change with an absent
range is skipped (`else { continue }`).  A failing rope edit aborts the loop
with an error, keeping the edits already applied (modelled by the `Bool`
flag of `change_doc`).  The missing-document branch of the source (log and
return Ok) is outside this model, which covers an open document. -/

structure TextDocumentContentChange where
  range : Option ((Nat × Nat) × (Nat × Nat))
  text : String
deriving DecidableEq, Repr

instance {e a : Type} [DecidableEq e] [DecidableEq a] : DecidableEq (Except e a) :=
  fun x y =>
    match x, y with
    | .error u, .error v =>
      if h : u = v then .isTrue (by rw [h]) else .isFalse (by simp [h])
    | .error _, .ok _ => .isFalse (by simp)
    | .ok _, .error _ => .isFalse (by simp)
    | .ok u, .ok v =>
      if h : u = v then .isTrue (by rw [h]) else .isFalse (by simp [h])

def change_start_idx (text : List Char) (sl sc : Nat) : Except Unit Nat :=
  match try_line_to_char text sl with
  | .error e => .error e
  | .ok i => .ok (i + sc)

def change_end_idx (text : List Char) (el ec : Nat) : Except Unit Nat :=
  match try_line_to_char text el with
  | .error e => .error e
  | .ok i => if i + ec > text.length then .error () else .ok (i + ec)

def apply_change (text : List Char) (c : TextDocumentContentChange) :
    Except Unit (List Char) :=
  match c.range with
  | none => .ok text
  | some ((sl, sc), (el, ec)) =>
    match change_start_idx text sl sc, change_end_idx text el ec with
    | .ok s, .error _ =>
      match try_remove_from text s with
      | .error e => .error e
      | .ok t => try_insert t s c.text.data
    | .ok s, .ok e =>
      match try_remove_range text s e with
      | .error e => .error e
      | .ok t => try_insert t s c.text.data
    | .error _, _ => .ok c.text.data

def change_doc (text : List Char) : List TextDocumentContentChange → List Char × Bool
  | [] => (text, true)
  | c :: rest =>
    match apply_change text c with
    | .ok t => change_doc t rest
    | .error _ => (text, false)

/-! ## Lemmas about the chunk reader. -/

theorem rope_reader_join (w : Char → Bool) (chunks : List (List Char)) :
    ∀ tail, (rope_reader_read w tail chunks).flatten = tail ++ chunks.flatten := by
  induction chunks with
  | nil =>
    intro tail
    cases tail <;> simp [rope_reader_read]
  | cons c rest ih =>
    intro tail
    unfold rope_reader_read
    cases h : lastNonWordPos w c with
    | some i =>
      by_cases hi : i = 0
      · simp [hi, ih]
      · simp only [ne_eq, hi, not_false_eq_true, if_true, List.flatten_cons, ih,
          List.append_assoc]
        rw [← List.append_assoc (List.take i c), List.take_append_drop]
    | none => simp [ih]

theorem lastNonWordPos_le {w : Char → Bool} {c : List Char} {i : Nat} {x : Char}
    (hget : c.get? i = some x) (hx : w x = false) :
    ∃ j, lastNonWordPos w c = some j ∧ i ≤ j := by
  induction c generalizing i with
  | nil => simp at hget
  | cons a cs ih =>
    cases i with
    | zero =>
      simp at hget
      subst hget
      cases h : lastNonWordPos w cs with
      | some k => exact ⟨k + 1, by simp [lastNonWordPos, h], Nat.zero_le _⟩
      | none => exact ⟨0, by simp [lastNonWordPos, h, hx], Nat.le_refl 0⟩
    | succ i' =>
      simp only [List.get?_cons_succ] at hget
      obtain ⟨j', hj', hij'⟩ := ih hget
      exact ⟨j' + 1, by simp [lastNonWordPos, hj'], Nat.succ_le_succ hij'⟩

theorem lastNonWordPos_get {w : Char → Bool} {c : List Char} {j : Nat}
    (h : lastNonWordPos w c = some j) :
    ∃ x, c.get? j = some x ∧ w x = false := by
  induction c generalizing j with
  | nil => simp [lastNonWordPos] at h
  | cons a cs ih =>
    unfold lastNonWordPos at h
    cases h' : lastNonWordPos w cs with
    | some k =>
      rw [h'] at h
      simp at h
      subst h
      obtain ⟨x, hx, hwx⟩ := ih h'
      exact ⟨x, by simpa using hx, hwx⟩
    | none =>
      rw [h'] at h
      by_cases hw : w a
      · simp [hw] at h
      · simp [hw] at h
        subst h
        exact ⟨a, rfl, by simpa using hw⟩

theorem rope_reader_head_eq (w : Char → Bool) {tail : List Char} (h : tail ≠ [])
    (chunks : List (List Char)) {l : List Char} {rest : List (List Char)}
    (hout : rope_reader_read w tail chunks = l :: rest) :
    l.head? = tail.head? := by
  obtain ⟨a, tl, rfl⟩ : ∃ a tl, tail = a :: tl := by
    cases tail with
    | nil => exact absurd rfl h
    | cons a tl => exact ⟨a, tl, rfl⟩
  cases chunks with
  | nil =>
    simp [rope_reader_read] at hout
    simp [← hout.1]
  | cons c cs =>
    unfold rope_reader_read at hout
    cases hl : lastNonWordPos w c with
    | some i =>
      rw [hl] at hout
      by_cases hi : i = 0 <;> simp [hi] at hout <;> simp [← hout.1]
    | none =>
      rw [hl] at hout
      simp at hout
      simp [← hout.1]

theorem rope_reader_no_split (w : Char → Bool) (chunks : List (List Char))
    (h : ∀ c ∈ chunks, ∃ i x, i ≠ 0 ∧ c.get? i = some x ∧ w x = false) :
    ∀ tail, no_word_split w (rope_reader_read w tail chunks) = true := by
  induction chunks with
  | nil =>
    intro tail
    cases tail <;> simp [rope_reader_read, no_word_split]
  | cons c rest ih =>
    intro tail
    obtain ⟨i, x, hi0, hget, hx⟩ := h c (List.mem_cons_self c rest)
    obtain ⟨j, hj, hij⟩ := lastNonWordPos_le hget hx
    have hj0 : j ≠ 0 := fun hz => hi0 (Nat.le_zero.mp (hz ▸ hij))
    have hrest := ih (fun c' hc' => h c' (List.mem_cons_of_mem c hc')) (c.drop j)
    unfold rope_reader_read
    rw [hj]
    simp only [hj0, if_true, ne_eq, not_false_eq_true]
    cases hout : rope_reader_read w (c.drop j) rest with
    | nil => simp [no_word_split]
    | cons l ls =>
      simp only [no_word_split, Bool.and_eq_true]
      refine ⟨?_, hout ▸ hrest⟩
      obtain ⟨y, hy, hwy⟩ := lastNonWordPos_get hj
      have hjlen : j < c.length := by
        rcases List.get?_eq_some.mp hy with ⟨hlt, _⟩
        exact hlt
      have hdr : (c.drop j) ≠ [] := by
        intro hnil
        have := congrArg List.length hnil
        simp [List.length_drop] at this
        omega
      have hl : l.head? = (c.drop j).head? := rope_reader_head_eq w hdr rest hout
      have hhead : l.head? = some y := by
        rw [hl, List.head?_drop]
        exact (List.get?_eq_getElem? c j).symm.trans hy
      unfold boundary_ok
      rw [hhead]
      cases (tail ++ c.take j).getLast? with
      | none => rfl
      | some z => simp [hwy]

/-! ## Theorems for the claims settled so far. -/

/-- Claim C6 (amended): concatenating the blocks emitted by the chunk reader
always reproduces the rope's content, and no run of word characters is split
across two consecutive emitted blocks provided every internal chunk contains
a non-word character at a nonzero position.  (Without that proviso the
no-split half fails, see the counterexample.) -/
theorem rope_reader_spec (w : Char → Bool) (chunks : List (List Char)) :
    (rope_reader_read w [] chunks).flatten = chunks.flatten ∧
    ((∀ c ∈ chunks, ∃ i x, i ≠ 0 ∧ c.get? i = some x ∧ w x = false) →
      no_word_split w (rope_reader_read w [] chunks) = true) :=
  ⟨by simpa using rope_reader_join w chunks [], fun h => rope_reader_no_split w chunks h []⟩

/-- Witness for `rope_reader_spec` at chunks `"a.b"` and `"c!d"`. -/
theorem rope_reader_spec_witness :
    no_word_split char_is_word
      (rope_reader_read char_is_word [] [['a', '.', 'b'], ['c', '!', 'd']]) = true := by
  apply (rope_reader_spec char_is_word [['a', '.', 'b'], ['c', '!', 'd']]).2
  intro c hc
  fin_cases hc
  · exact ⟨1, '.', by decide, by decide, by decide⟩
  · exact ⟨1, '!', by decide, by decide, by decide⟩

/-- Claim C6, counterexample: when a chunk consists of word characters only
(as ropey produces for a word longer than one internal chunk, about 1 KB),
the reader emits it unsplit and the word run crosses the block boundary:
with chunks `"ab"` and `"cd"` the emitted blocks are `"ab"`, `"cd"`, and the
word `"abcd"` is split between them, while the concatenation is still exact. -/
theorem rope_reader_split_counterexample :
    rope_reader_read char_is_word [] [['a', 'b'], ['c', 'd']] = [['a', 'b'], ['c', 'd']] ∧
    no_word_split char_is_word
      (rope_reader_read char_is_word [] [['a', 'b'], ['c', 'd']]) = false ∧
    (rope_reader_read char_is_word [] [['a', 'b'], ['c', 'd']]).flatten
      = ['a', 'b', 'c', 'd'] := by
  decide

/-- Claim C1: the merge is not field-wise.  Setting `max_chars_prefix_len` in
the partial object is ignored (the source reads `max_path_chars` instead),
and setting `citation_prefix_trigger` also overwrites
`citation_bibfile_extract_regexp`; applying the all-unset partial object is
the identity, as the claim states. -/
theorem apply_partial_settings_bug :
    (BackendSettings.default.apply_partial_settings
        { emptyPartialSettings with max_chars_prefix_len := some 7 }).max_chars_prefix_len
      = 64 ∧
    (BackendSettings.default.apply_partial_settings
        { emptyPartialSettings with citation_prefix_trigger := some "#" }).citation_bibfile_extract_regexp
      = "#" ∧
    ∀ s : BackendSettings, s.apply_partial_settings emptyPartialSettings = s := by
  refine ⟨rfl, rfl, fun s => ?_⟩
  cases s
  rfl

/-- Claim C8: the default of `feature_unicode_input` is `false` in the source
(`lib.rs` line 82), although the spec table and the repository's own test
`tests/basic.rs::unicode_input` (which sends no configuration change and
expects a unicode item) require `true`. -/
theorem default_feature_unicode_input_is_false :
    BackendSettings.default.feature_unicode_input = false := rfl

/-- Claim C9: a `SaveDoc` without inline text whose file open/read fails
returns an error and leaves every document exactly as it was (the source's
`?` operators fire before the buffer assignment). -/
theorem save_doc_io_error_preserves (docs : List Document) (uri : String)
    (h : (docs.any fun d => d.uri == uri) = true) :
    save_doc docs uri none (Except.error ()) = (docs, false) := by
  simp [save_doc, h]

/-- Witness for `save_doc_io_error_preserves` on a one-document state. -/
theorem save_doc_io_error_preserves_witness :
    save_doc [⟨"file:///a", ['x'], "t"⟩] "file:///a" none (Except.error ())
      = ([⟨"file:///a", ['x'], "t"⟩], false) :=
  save_doc_io_error_preserves _ _ (by decide)

/-- Claim C10: `starts_with` is total; it returns `false` whenever `s` is
byte-longer than `source` or the byte length of `s` is not a character
boundary of `source`, and when it returns `true` the first `len(s)` bytes of
`source` caselessly match `s` (for every caseless comparison `cm`). -/
theorem starts_with_spec (cm : String → String → Bool) (source s : String) :
    (s.utf8ByteSize > source.utf8ByteSize → starts_with cm source s = false) ∧
    (String.Pos.isValid source ⟨s.utf8ByteSize⟩ = false →
      starts_with cm source s = false) ∧
    (starts_with cm source s = true →
      s.utf8ByteSize ≤ source.utf8ByteSize ∧
      String.Pos.isValid source ⟨s.utf8ByteSize⟩ = true ∧
      cm (source.extract 0 ⟨s.utf8ByteSize⟩) s = true) := by
  refine ⟨fun h => ?_, fun h => ?_, fun h => ?_⟩
  · simp [starts_with, h]
  · unfold starts_with
    split_ifs with h1 h2
    · rfl
    · rw [h] at h2
      exact absurd h2 (by simp)
    · rfl
  · unfold starts_with at h
    split_ifs at h with h1 h2
    exact ⟨Nat.le_of_not_lt h1, by simpa using h2, h⟩

/-- Witness for `starts_with_spec`: a byte-longer needle is rejected. -/
theorem starts_with_spec_witness :
    starts_with asciiCaselessMatch "x" "ä" = false :=
  (starts_with_spec asciiCaselessMatch "x" "ä").1 (by decide)

theorem change_end_idx_le {text : List Char} {el ec e : Nat}
    (h : change_end_idx text el ec = .ok e) : e ≤ text.length := by
  unfold change_end_idx at h
  cases h' : try_line_to_char text el with
  | error u => rw [h'] at h; exact absurd h (by simp)
  | ok i =>
    rw [h'] at h
    dsimp only at h
    split_ifs at h with hgt
    injection h with h2
    omega

/-- Claim C2 (amended): per content change on an open document, a change with
an absent range is skipped, leaving the text unchanged (not a full-document
replace); when the start resolves in bounds and the end does not, the source
removes from start to end of buffer and inserts the change text; when both
resolve (start before end), it removes the span and inserts; when the start
fails to resolve, it replaces the whole document with the change text. -/
theorem apply_change_spec (text : List Char) (sl sc el ec : Nat) (txt : String) :
    (apply_change text { range := none, text := txt } = .ok text) ∧
    (∀ s, change_start_idx text sl sc = .ok s → s ≤ text.length →
      change_end_idx text el ec = .error () →
      apply_change text { range := some ((sl, sc), (el, ec)), text := txt }
        = .ok (text.take s ++ txt.data)) ∧
    (∀ s e, change_start_idx text sl sc = .ok s →
      change_end_idx text el ec = .ok e → s ≤ e →
      apply_change text { range := some ((sl, sc), (el, ec)), text := txt }
        = .ok (text.take s ++ txt.data ++ text.drop e)) ∧
    (change_start_idx text sl sc = .error () →
      apply_change text { range := some ((sl, sc), (el, ec)), text := txt }
        = .ok txt.data) := by
  refine ⟨rfl, fun s hs hsl he => ?_, fun s e hs he hse => ?_, fun hs => ?_⟩
  · have h1 : try_remove_from text s = .ok (text.take s) := by
      simp [try_remove_from, hsl]
    have hlen : (text.take s).length = s := by
      simp [List.length_take]
      omega
    simp only [apply_change, hs, he, h1, try_insert, hlen, Nat.le_refl, if_true]
    rw [List.take_take, Nat.min_self, List.drop_eq_nil_of_le hlen.le]
    simp
  · have hel : e ≤ text.length := change_end_idx_le he
    have hsl : s ≤ text.length := hse.trans hel
    have h1 : try_remove_range text s e = .ok (text.take s ++ text.drop e) := by
      simp [try_remove_range, hse, hel]
    have hlen : (text.take s).length = s := by
      simp [List.length_take]
      omega
    have hle : s ≤ (text.take s ++ text.drop e).length := by
      simp [hlen]
    simp only [apply_change, hs, he, h1, try_insert, hle, if_true]
    rw [List.take_left' hlen, List.drop_left' hlen]
  · simp [apply_change, hs]

/-- Witness for `apply_change_spec`: splicing `"Z"` over the span from
(0,1) to (1,1) of `"ab\ncd"` yields `"aZd"`. -/
theorem apply_change_spec_witness :
    apply_change ['a', 'b', '\n', 'c', 'd']
        { range := some ((0, 1), (1, 1)), text := "Z" } = .ok ['a', 'Z', 'd'] :=
  ((apply_change_spec ['a', 'b', '\n', 'c', 'd'] 0 1 1 1 "Z").2.2.1 1 4
    (by decide) (by decide) (by decide)).trans (by decide)

/-- Claim C2, counterexample: a content change with an absent range does not
replace the document; the source skips it (`else { continue }`), so the text
`"ab"` stays `"ab"` instead of becoming `"xyz"`. -/
theorem change_doc_missing_range_counterexample :
    apply_change ['a', 'b'] { range := none, text := "xyz" } = .ok ['a', 'b'] ∧
    change_doc ['a', 'b'] [{ range := none, text := "xyz" }] = (['a', 'b'], true) ∧
    ¬ (change_doc ['a', 'b'] [{ range := none, text := "xyz" }]).1 = "xyz".data := by
  decide

/-! ## `get_prefix` (`lib.rs` lines 518-570).

The cursor is `try_line_to_char(line)? + character`; `get_chars_at(cursor)`
is `None` exactly when the cursor exceeds the char length.  The word prefix
consumes word characters right-to-left from the cursor; the char prefix
consumes up to `max_chars` non-whitespace characters (the enumerated
`take_while` bound `i < max_chars` is the same as running `take_while` on the
first `max_chars` reversed characters).  The source's redundant
`start_offset > len_chars` bail-outs can never fire (`saturating_sub` keeps
both offsets at most `cursor`).  `RopeSlice::as_str` is total in the char
model, hence the prefixes are always `some`. -/

def get_prefix (w : Char → Bool) (maxChars : Nat) (docs : List Document)
    (uri : String) (line chr : Nat) :
    Except Unit (Option String × Option String × Document) :=
  match docs.find? fun d => d.uri == uri with
  | none => .error ()
  | some doc =>
    match try_line_to_char doc.text line with
    | .error e => .error e
    | .ok lineStart =>
      let cursor := lineStart + chr
      if doc.text.length < cursor then .error ()
      else
        let before := (doc.text.take cursor).reverse
        let offsetW := (before.takeWhile w).length
        let offsetC := ((before.take maxChars).takeWhile char_is_char_prefix).length
        .ok (some (String.mk ((doc.text.take cursor).drop (cursor - offsetW))),
             some (String.mk ((doc.text.take cursor).drop (cursor - offsetC))),
             doc)

/-! ## The streaming word search (`ac_searcher` and `search`, `lib.rs` lines
300-365).

`acMatches` models `AhoCorasick::try_stream_find_iter` with
`ascii_case_insensitive(true)` and the single pattern `prefix`, run over the
`RopeReader` byte stream, at the char level: a valid-UTF-8 pattern can only
match at character boundaries of UTF-8 text (its first byte is ASCII or a
lead byte, never a continuation byte, and ASCII case folding maps single
bytes to single bytes), the stream iterator yields non-overlapping leftmost
matches, and the empty pattern matches emptily at every position.
`Char.toLower` is exactly the ASCII case fold.  The C5 soundness theorem is
proved for an arbitrary match list, so nothing depends on this enumeration
being exhaustive. -/

def acMatchesGo (pat : List Char) : Nat → List Char → Nat → List (Nat × Nat)
  | 0, _, _ => []
  | _ + 1, [], _ => []
  | fuel + 1, c :: rest, i =>
    if ((c :: rest).take pat.length).map Char.toLower = pat.map Char.toLower then
      (i, i + pat.length) ::
        acMatchesGo pat fuel ((c :: rest).drop pat.length) (i + pat.length)
    else
      acMatchesGo pat fuel rest (i + 1)

/-- The fuel argument (`text.length`) only forces structural recursion: a
nonempty pattern advances at least one character per step, so the fuel never
runs out before the text does. -/
def acMatches (pat : List Char) (text : List Char) : List (Nat × Nat) :=
  match pat with
  | [] => (List.range (text.length + 1)).map fun i => (i, i)
  | p0 :: ps => acMatchesGo (p0 :: ps) text.length text 0

/-- The match loop of `search` (`lib.rs` lines 316-362).  Byte/char index
conversions are in-bounds identities in the char model (a failing conversion
skips the match, as in the source); the left word-boundary test, the
rightward word extension, the `item != prefix` and `starts_with` guards, the
deduplicating insert, and the `max_completion_items` early return are
translated one to one.  `RopeSlice::as_str` returning `None` (a cross-chunk
slice) skips a match in the source; the model keeps every match, a superset
that only strengthens the soundness theorem. -/
def searchLoop (w : Char → Bool) (cm : String → String → Bool) (prefixVal : String)
    (text : List Char) (maxItems : Nat) :
    List (Nat × Nat) → List String → List String
  | [], res => res
  | (s, e) :: rest, res =>
    if text.length < s ∨ text.length < e then
      searchLoop w cm prefixVal text maxItems rest res
    else if decide (0 < s) && (match text.get? (s - 1) with
        | none => true
        | some ch => w ch) then
      searchLoop w cm prefixVal text maxItems rest res
    else
      let k := ((text.drop e).takeWhile w).length
      let item := String.mk ((text.take (e + k)).drop s)
      if item ≠ prefixVal ∧ starts_with cm item prefixVal = true then
        let res' := if res.contains item then res else res ++ [item]
        if maxItems ≤ res'.length then res'
        else searchLoop w cm prefixVal text maxItems rest res'
      else searchLoop w cm prefixVal text maxItems rest res

def search (w : Char → Bool) (cm : String → String → Bool) (prefixVal : String)
    (text : List Char) (maxItems : Nat) (res : List String) : List String :=
  searchLoop w cm prefixVal text maxItems (acMatches prefixVal.data text) res

/-! ## Completion items and providers (`lib.rs` lines 572-1076).

`CompletionItem` keeps the fields some claim inspects (label, filter text,
sort text, kind); documentation, details and the insert/replace text edit of
the source are omitted.  `Snippet.prefixVal` / `UnicodeInputItem.prefixVal`
model the source field `prefix` (not a legal Lean identifier). -/

inductive CompletionItemKind
  | text
  | snippet
  | reference
  | file
  | folder
deriving DecidableEq, Repr

structure CompletionItem where
  label : String
  filterText : Option String
  sortText : Option String
  kind : CompletionItemKind
deriving DecidableEq, Repr

structure Snippet where
  scope : Option (List String)
  prefixVal : String
  body : String
  description : Option String
deriving DecidableEq, Repr

structure UnicodeInputItem where
  prefixVal : String
  body : String
deriving DecidableEq, Repr

/-- The state the completion request path reads (`BackendState`, `lib.rs`
lines 392-404): settings, snippet and unicode-input tables, open documents,
and the word/caseless predicates of the module docstring.  `dirEntries`
abstracts the single `read_dir` listing of the path provider (name and
is-directory flag, in directory order); `bibliographies` abstracts the
citation provider's environment: one key list per bibliography file that the
buffer regex located and that was read and parsed successfully (the source
skips failing files). -/
structure CompletionCtx where
  settings : BackendSettings
  snippets : List Snippet
  unicode_input : List UnicodeInputItem
  docs : List Document
  dirEntries : List (String × Bool)
  bibliographies : List (List String)
  w : Char → Bool
  cm : String → String → Bool

/-- `BackendState::new` precomputes the maximal unicode-input trigger byte
length (`lib.rs` lines 429-433). -/
def CompletionCtx.max_unicode_input_prefix_len (ctx : CompletionCtx) : Nat :=
  ((ctx.unicode_input.map fun s => s.prefixVal.utf8ByteSize).max?).getD 0

/-- `BackendState::new` precomputes the maximal snippet trigger byte length
(`lib.rs` lines 434-438). -/
def CompletionCtx.max_snippet_input_prefix_len (ctx : CompletionCtx) : Nat :=
  ((ctx.snippets.map fun s => s.prefixVal.utf8ByteSize).max?).getD 0

/-- `BackendState::snippets` (`lib.rs` lines 620-690): filter by scope and by
exact/non-exact caseless trigger match, cap at `max_completion_items`. -/
def snippetsProvider (ctx : CompletionCtx) (pre filterTextPre : String)
    (exactMatch : Bool) (doc : Document) : List CompletionItem :=
  ((ctx.snippets.filter fun s =>
      (match s.scope with
       | some scope => scope.isEmpty || scope.contains doc.language_id
       | none => true) &&
      (if exactMatch then ctx.cm s.prefixVal pre
       else starts_with ctx.cm s.prefixVal pre)).map fun s =>
    { label := s.prefixVal
      sortText := some s.prefixVal
      filterText := some (if filterTextPre.isEmpty then s.prefixVal else filterTextPre)
      kind := CompletionItemKind.snippet }).take ctx.settings.max_completion_items

/-- `str::get(index..)` of the source's tail loops: `some` suffix exactly
when the byte index is a character boundary. -/
def byteSuffix (s : String) (i : Nat) : Option String :=
  if String.Pos.isValid s ⟨i⟩ then some (s.extract ⟨i⟩ ⟨s.utf8ByteSize⟩) else none

/-- Loop body of `BackendState::snippets_by_word_tail` (`lib.rs` lines
692-721), iterating byte indices into the char prefix. -/
def snippetsByWordTailGo (ctx : CompletionCtx) (doc : Document)
    (charsPrefix : String) : List Nat → List CompletionItem → List CompletionItem
  | [], acc => acc
  | i :: rest, acc =>
    match byteSuffix charsPrefix i with
    | none => snippetsByWordTailGo ctx doc charsPrefix rest acc
    | some part =>
      if part.isEmpty then acc
      else if ctx.max_snippet_input_prefix_len < part.utf8ByteSize then
        snippetsByWordTailGo ctx doc charsPrefix rest acc
      else if part.utf8ByteSize < ctx.settings.min_chars_prefix_len then acc
      else
        let acc' := acc ++ snippetsProvider ctx part charsPrefix false doc
        if ctx.settings.max_completion_items ≤ acc'.length then acc'
        else snippetsByWordTailGo ctx doc charsPrefix rest acc'

def snippets_by_word_tail (ctx : CompletionCtx) (doc : Document)
    (charsPrefix : String) : List CompletionItem :=
  snippetsByWordTailGo ctx doc charsPrefix
    (List.range (charsPrefix.utf8ByteSize + 1)) []

/-- Zero-padding to width 2, `format!("{:0width$}", index, width = 2)`. -/
def padTwo (n : Nat) : String :=
  if n < 10 then "0" ++ toString n else toString n

/-- Loop body of `BackendState::unicode_input` (`lib.rs` lines 723-800). -/
def unicodeInputGo (ctx : CompletionCtx) (wordPrefix charsPrefix : String) :
    List Nat → List CompletionItem → List CompletionItem
  | [], acc => acc
  | i :: rest, acc =>
    match byteSuffix charsPrefix i with
    | none => unicodeInputGo ctx wordPrefix charsPrefix rest acc
    | some part =>
      if part.isEmpty then acc
      else if ctx.max_unicode_input_prefix_len < part.utf8ByteSize then
        unicodeInputGo ctx wordPrefix charsPrefix rest acc
      else if part.utf8ByteSize < ctx.settings.min_chars_prefix_len then acc
      else
        let items := ((ctx.unicode_input.filter fun s =>
            starts_with ctx.cm s.prefixVal part).map fun s =>
          { label := s.body
            filterText := some (wordPrefix ++ s.prefixVal)
            sortText := none
            kind := CompletionItemKind.text : CompletionItem }).take
            (ctx.settings.max_completion_items - acc.length)
        let acc' := acc ++ items
        if ctx.settings.max_completion_items ≤ acc'.length then acc'
        else unicodeInputGo ctx wordPrefix charsPrefix rest acc'

def unicode_input_provider (ctx : CompletionCtx) (wordPrefix charsPrefix : String) :
    List CompletionItem :=
  ((unicodeInputGo ctx wordPrefix charsPrefix
      (List.range (charsPrefix.utf8ByteSize + 1)) []).enum).map
    fun p => { p.2 with sortText := some (padTwo p.1) }

/-- `BackendState::completion` (`lib.rs` lines 572-603): search the current
document first, then every other document, stopping at
`max_completion_items`. -/
def completionWordsGo (ctx : CompletionCtx) (pre : String) :
    List Document → List String → List String
  | [], res => res
  | d :: rest, res =>
    let res' := search ctx.w ctx.cm pre d.text ctx.settings.max_completion_items res
    if ctx.settings.max_completion_items ≤ res'.length then res'
    else completionWordsGo ctx pre rest res'

def completionWords (ctx : CompletionCtx) (pre : String) (current : Document) :
    List String :=
  let r1 := search ctx.w ctx.cm pre current.text ctx.settings.max_completion_items []
  if ctx.settings.max_completion_items ≤ r1.length then r1
  else completionWordsGo ctx pre (ctx.docs.filter fun d => d.uri ≠ current.uri) r1

/-- `BackendState::words` (`lib.rs` lines 605-618). -/
def wordsProvider (ctx : CompletionCtx) (pre : String) (doc : Document) :
    List CompletionItem :=
  (completionWords ctx pre doc).map fun word =>
    { label := word, filterText := none, sortText := none,
      kind := CompletionItemKind.text }

/-- `BackendState::paths` (`lib.rs` lines 802-914).  The path-expansion
machinery (`PathState`, tilde/relative expansion and fold-back, `Path`
parent/file-name splitting) and the `read_dir` call are abstracted: the
directory listing comes from `ctx.dirEntries` and items are labelled with the
entry name; the separator activation test, the leading-character sanitizing,
the trailing-separator/file-name filter and the `max_completion_items`
truncation follow the source.  Lowercasing is the ASCII fragment of Rust
`to_lowercase`, and `'/'` is the platform separator. -/
def pathsProvider (ctx : CompletionCtx) (wordPrefix charsPrefix : String) :
    List CompletionItem :=
  if ¬ charsPrefix.data.contains '/' then []
  else
    match charsPrefix.data.head? with
    | none => []
    | some firstChar =>
      let cp := if firstChar.isAlpha || firstChar == '/' || firstChar == '~'
          || firstChar == '.' then charsPrefix.data
        else charsPrefix.data.drop 1
      let fname : List Char :=
        if charsPrefix.data.getLast? == some '/' then []
        else ((cp.reverse.takeWhile fun c => c ≠ '/').reverse).map Char.toLower
      ((ctx.dirEntries.filter fun ent =>
          fname.isEmpty || fname.isPrefixOf (ent.1.data.map Char.toLower)).map
        fun ent =>
          { label := ent.1
            sortText := some ent.1
            filterText := some (wordPrefix ++ ent.1)
            kind := if ent.2 then CompletionItemKind.folder
              else CompletionItemKind.file : CompletionItem }).take
        ctx.settings.max_completion_items

/-- Loop of `BackendState::citations` (`lib.rs` lines 916-1076) over the
located bibliography files: stop at `max_completion_items`, and per file emit
an item for each key the word prefix caselessly starts (label `@key`, filter
and sort text the word prefix, kind reference), truncated to the remaining
budget. -/
def citationsGo (ctx : CompletionCtx) (wordPrefix : String) :
    List (List String) → List CompletionItem → List CompletionItem
  | [], items => items
  | keys :: rest, items =>
    if ctx.settings.max_completion_items ≤ items.length then items
    else
      let newItems := ((keys.filter fun key =>
          starts_with ctx.cm key wordPrefix).map fun key =>
        { label := "@" ++ key
          sortText := some wordPrefix
          filterText := some wordPrefix
          kind := CompletionItemKind.reference : CompletionItem }).take
          (ctx.settings.max_completion_items - items.length)
      citationsGo ctx wordPrefix rest (items ++ newItems)

def citationsProvider (ctx : CompletionCtx) (wordPrefix : String) :
    List CompletionItem :=
  citationsGo ctx wordPrefix ctx.bibliographies []

/-! ## The merged completion array (`base_completion`, `lib.rs` lines
1147-1254): seven chained segments — snippets-first by tail, snippets-first
exact, words, snippets-last by tail, snippets-last non-exact, unicode input,
paths — each guarded exactly as the source's match/if guards. -/

def snippets_first_tail_segment (ctx : CompletionCtx) (pre : Option String)
    (charsPrefix : String) (doc : Document) : List CompletionItem :=
  match ctx.settings.feature_snippets, ctx.settings.snippets_inline_by_word_tail,
      ctx.settings.snippets_first, pre with
  | true, true, true, _ =>
    if charsPrefix.isEmpty then [] else snippets_by_word_tail ctx doc charsPrefix
  | _, _, _, _ => []

def snippets_first_exact_segment (ctx : CompletionCtx) (pre : Option String)
    (doc : Document) : List CompletionItem :=
  match ctx.settings.feature_snippets, ctx.settings.snippets_inline_by_word_tail,
      ctx.settings.snippets_first, pre with
  | true, false, true, some p =>
    if p.isEmpty then [] else snippetsProvider ctx p "" true doc
  | _, _, _, _ => []

def words_segment (ctx : CompletionCtx) (pre : Option String) (doc : Document) :
    List CompletionItem :=
  match pre with
  | some p => if ctx.settings.feature_words then wordsProvider ctx p doc else []
  | none => []

def snippets_last_tail_segment (ctx : CompletionCtx) (pre : Option String)
    (charsPrefix : String) (doc : Document) : List CompletionItem :=
  match ctx.settings.feature_snippets, ctx.settings.snippets_inline_by_word_tail,
      ctx.settings.snippets_first, pre with
  | true, true, false, _ =>
    if charsPrefix.isEmpty then [] else snippets_by_word_tail ctx doc charsPrefix
  | _, _, _, _ => []

def snippets_last_exact_segment (ctx : CompletionCtx) (pre : Option String)
    (doc : Document) : List CompletionItem :=
  match ctx.settings.feature_snippets, ctx.settings.snippets_inline_by_word_tail,
      ctx.settings.snippets_first, pre with
  | true, false, false, some p =>
    if p.isEmpty then [] else snippetsProvider ctx p "" false doc
  | _, _, _, _ => []

def unicode_segment (ctx : CompletionCtx) (pre : Option String)
    (charsPrefix : String) : List CompletionItem :=
  if ctx.settings.feature_unicode_input then
    unicode_input_provider ctx (pre.getD "") charsPrefix
  else []

def paths_segment (ctx : CompletionCtx) (pre : Option String)
    (charsPrefix : String) : List CompletionItem :=
  if ctx.settings.feature_paths then
    pathsProvider ctx (pre.getD "") charsPrefix
  else []

def base_completion (ctx : CompletionCtx) (pre : Option String)
    (charsPrefix : String) (doc : Document) : List CompletionItem :=
  snippets_first_tail_segment ctx pre charsPrefix doc ++
  snippets_first_exact_segment ctx pre doc ++
  words_segment ctx pre doc ++
  snippets_last_tail_segment ctx pre charsPrefix doc ++
  snippets_last_exact_segment ctx pre doc ++
  unicode_segment ctx pre charsPrefix ++
  paths_segment ctx pre charsPrefix

/-- `str::contains(&str)`: byte-level substring containment, which for valid
UTF-8 coincides with char-level containment. -/
def strContains (hay needle : String) : Bool :=
  (List.range (hay.data.length + 1)).any fun i =>
    needle.data.isPrefixOf (hay.data.drop i)

inductive CompletionReply
  | err
  | items (xs : List CompletionItem)
deriving DecidableEq, Repr

/-- The `CompletionRequest` arm of `BackendState::start` (`lib.rs` lines
1110-1281): failed prefix extraction or a `None` char prefix replies with an
error; an empty char prefix or one starting with a space replies with an
empty array; when `feature_citations` is set and the char prefix contains the
citation trigger, the citation provider's items replace the merged array;
otherwise the merged `base_completion` array is returned. -/
def completion_request (ctx : CompletionCtx) (uri : String) (line chr : Nat) :
    CompletionReply :=
  match get_prefix ctx.w ctx.settings.max_chars_prefix_len ctx.docs uri line chr with
  | .error _ => .err
  | .ok (pre, charsPrefixOpt, doc) =>
    match charsPrefixOpt with
    | none => .err
    | some charsPrefix =>
      if charsPrefix.isEmpty || charsPrefix.data.head? == some ' ' then .items []
      else if ctx.settings.feature_citations &&
          strContains charsPrefix ctx.settings.citation_prefix_trigger then
        .items (citationsProvider ctx (pre.getD ""))
      else .items (base_completion ctx pre charsPrefix doc)

/-! ## Word-search soundness (claim C5). -/

theorem searchLoop_sound (w : Char → Bool) (cm : String → String → Bool)
    (prefixVal : String) (text : List Char) (maxItems : Nat) :
    ∀ (ms : List (Nat × Nat)) (res : List String) (item : String),
      item ∈ searchLoop w cm prefixVal text maxItems ms res →
      item ∈ res ∨
      ∃ s n, item.data = (text.take (s + n)).drop s ∧
        (s = 0 ∨ ∃ ch, text.get? (s - 1) = some ch ∧ w ch = false) ∧
        item ≠ prefixVal ∧ starts_with cm item prefixVal = true := by
  intro ms
  induction ms with
  | nil =>
    intro res item h
    exact Or.inl h
  | cons m rest ih =>
    obtain ⟨s, e⟩ := m
    intro res item h
    by_cases hA : text.length < s ∨ text.length < e
    · rw [searchLoop, if_pos hA] at h
      exact ih res item h
    · rw [searchLoop, if_neg hA] at h
      by_cases hB : (decide (0 < s) && (match text.get? (s - 1) with
          | none => true
          | some ch => w ch)) = true
      · rw [if_pos hB] at h
        exact ih res item h
      · rw [if_neg hB] at h
        dsimp only at h
        have hbound : s = 0 ∨ ∃ ch, text.get? (s - 1) = some ch ∧ w ch = false := by
          have hB' : (decide (0 < s) && (match text.get? (s - 1) with
              | none => true
              | some ch => w ch)) = false := by
            cases hb : (decide (0 < s) && (match text.get? (s - 1) with
                | none => true
                | some ch => w ch)) with
            | false => rfl
            | true => exact absurd hb hB
          rcases Bool.and_eq_false_iff.mp hB' with hz | hm
          · left
            have := of_decide_eq_false hz
            omega
          · cases hg : text.get? (s - 1) with
            | none =>
              rw [hg] at hm
              simp at hm
            | some ch =>
              rw [hg] at hm
              dsimp only at hm
              exact Or.inr ⟨ch, rfl, hm⟩
        set k := ((text.drop e).takeWhile w).length with hk
        have hslice : (String.mk ((text.take (e + k)).drop s)).data
            = (text.take (s + (e + k - s))).drop s := by
          by_cases hse : s ≤ e + k
          · rw [Nat.add_sub_cancel' hse]
          · have h1 : (text.take (e + k)).drop s = [] :=
              List.drop_eq_nil_of_le ((List.length_take_le _ _).trans (by omega))
            have h2 : (text.take (s + (e + k - s))).drop s = [] := by
              have h0 : e + k - s = 0 := by omega
              rw [h0]
              exact List.drop_eq_nil_of_le (by simp [List.length_take_le])
            rw [h2]
            exact h1
        by_cases hguard : (String.mk ((text.take (e + k)).drop s) ≠ prefixVal ∧
            starts_with cm (String.mk ((text.take (e + k)).drop s)) prefixVal = true)
        · rw [if_pos hguard] at h
          have hfin : item ∈ res ∨ item = String.mk ((text.take (e + k)).drop s) →
              item ∈ res ∨
              ∃ s' n, item.data = (text.take (s' + n)).drop s' ∧
                (s' = 0 ∨ ∃ ch, text.get? (s' - 1) = some ch ∧ w ch = false) ∧
                item ≠ prefixVal ∧ starts_with cm item prefixVal = true := by
            rintro (hin | rfl)
            · exact Or.inl hin
            · exact Or.inr ⟨s, e + k - s, hslice, hbound, hguard.1, hguard.2⟩
          set res' := if res.contains (String.mk ((text.take (e + k)).drop s))
            then res else res ++ [String.mk ((text.take (e + k)).drop s)] with hresd
          have hmem' : item ∈ res' → item ∈ res ∨
              item = String.mk ((text.take (e + k)).drop s) := by
            rw [hresd]
            intro hin
            split_ifs at hin
            · exact Or.inl hin
            · rcases List.mem_append.mp hin with hin | hin
              · exact Or.inl hin
              · exact Or.inr (List.mem_singleton.mp hin)
          split_ifs at h with hmax
          · exact hfin (hmem' h)
          · rcases ih res' item h with hin | hP
            · exact hfin (hmem' hin)
            · exact Or.inr hP
        · rw [if_neg hguard] at h
          exact ih res item h

/-- Claim C5: every string the word search inserts into the result set
occurs in the searched buffer at a position `s` that is position 0 or is
preceded by a non-word character, caselessly starts with the word prefix
(the `starts_with` guard), and is never byte-equal to the prefix itself —
for every word predicate `w`, caseless matcher `cm` and match list produced
by the automaton. -/
theorem search_sound (w : Char → Bool) (cm : String → String → Bool)
    (prefixVal : String) (text : List Char) (maxItems : Nat) (item : String)
    (hp : prefixVal ≠ "")
    (hmem : item ∈ search w cm prefixVal text maxItems []) :
    ∃ s n, item.data = (text.take (s + n)).drop s ∧
      (s = 0 ∨ ∃ ch, text.get? (s - 1) = some ch ∧ w ch = false) ∧
      item ≠ prefixVal ∧ starts_with cm item prefixVal = true := by
  rcases searchLoop_sound w cm prefixVal text maxItems
      (acMatches prefixVal.data text) [] item hmem with hin | hP
  · exact absurd hin (List.not_mem_nil item)
  · exact hP

/-- Witness for `search_sound`: searching the buffer `"hello\nhe"` content
up to the cursor line with prefix `"he"` yields `"hello"`, which satisfies
every soundness conjunct. -/
theorem search_sound_witness :
    ∃ s n, (String.mk ['h', 'e', 'l', 'l', 'o']).data
        = ((['h', 'e', 'l', 'l', 'o', '\n'].take (s + n)).drop s) ∧
      (s = 0 ∨ ∃ ch, ['h', 'e', 'l', 'l', 'o', '\n'].get? (s - 1) = some ch ∧
        char_is_word ch = false) ∧
      String.mk ['h', 'e', 'l', 'l', 'o'] ≠ "he" ∧
      starts_with asciiCaselessMatch (String.mk ['h', 'e', 'l', 'l', 'o']) "he" = true :=
  search_sound char_is_word asciiCaselessMatch "he" ['h', 'e', 'l', 'l', 'o', '\n']
    100 (String.mk ['h', 'e', 'l', 'l', 'o']) (by decide) (by decide)

/-! ## The char prefix never contains whitespace (used for claims C4, C7). -/

theorem get_prefix_char_class (w : Char → Bool) (maxChars : Nat)
    (docs : List Document) (uri : String) (line chr : Nat)
    (pre cpOpt : Option String) (doc : Document)
    (h : get_prefix w maxChars docs uri line chr = .ok (pre, cpOpt, doc)) :
    ∀ cp, cpOpt = some cp → ∀ ch ∈ cp.data, char_is_char_prefix ch = true := by
  unfold get_prefix at h
  cases hfind : docs.find? (fun d => d.uri == uri) with
  | none => rw [hfind] at h; exact absurd h (by simp)
  | some doc' =>
    rw [hfind] at h
    dsimp only at h
    cases hline : try_line_to_char doc'.text line with
    | error e => rw [hline] at h; exact absurd h (by simp)
    | ok lineStart =>
      rw [hline] at h
      dsimp only at h
      split_ifs at h with hcur
      injection h with h'
      simp only [Prod.mk.injEq] at h'
      obtain ⟨hpre, hcp, hdoc⟩ := h'
      intro cp hcp'
      rw [← hcp] at hcp'
      injection hcp' with hcp''
      rw [← hcp'']
      set cursor := lineStart + chr with hcursor
      set L := doc'.text.take cursor with hL
      set offsetC := ((L.reverse.take maxChars).takeWhile char_is_char_prefix).length
        with hoffC
      have hLlen : L.length = cursor := by
        rw [hL]
        simp [List.length_take]
        omega
      have hXr : L.drop (cursor - offsetC) = (L.reverse.take offsetC).reverse := by
        calc L.drop (cursor - offsetC) = L.drop (L.length - offsetC) := by rw [hLlen]
          _ = L.rtake offsetC := rfl
          _ = (L.reverse.take offsetC).reverse :=
            List.rtake_eq_reverse_take_reverse L offsetC
      have hTake : L.reverse.take offsetC
          = (L.reverse.take maxChars).takeWhile char_is_char_prefix := by
        have hpref : ((L.reverse.take maxChars).takeWhile char_is_char_prefix)
            <+: L.reverse :=
          (List.takeWhile_prefix _).trans (List.take_prefix _ _)
        have heq := List.prefix_iff_eq_take.mp hpref
        rw [heq]
      intro ch hch
      rw [hXr, hTake] at hch
      exact List.mem_takeWhile_imp (List.mem_reverse.mp hch)

theorem get_prefix_head_char_class (w : Char → Bool) (maxChars : Nat)
    (docs : List Document) (uri : String) (line chr : Nat)
    (pre : Option String) (cp : String) (doc : Document)
    (h : get_prefix w maxChars docs uri line chr = .ok (pre, some cp, doc)) :
    ∀ c, cp.data.head? = some c → char_is_char_prefix c = true := by
  intro c hc
  apply get_prefix_char_class w maxChars docs uri line chr pre (some cp) doc h cp rfl
  cases hd : cp.data with
  | nil => rw [hd] at hc; exact absurd hc (by simp)
  | cons a tl =>
    rw [hd] at hc
    injection hc with hc'
    rw [← hc']
    exact List.mem_cons_self a tl

/-! ## Citation exclusivity (claim C4). -/

theorem citationsGo_kind (ctx : CompletionCtx) (wordPrefix : String) :
    ∀ (bibs : List (List String)) (items : List CompletionItem),
      (∀ i ∈ items, i.kind = CompletionItemKind.reference) →
      ∀ i ∈ citationsGo ctx wordPrefix bibs items,
        i.kind = CompletionItemKind.reference := by
  intro bibs
  induction bibs with
  | nil =>
    intro items hi i h
    exact hi i h
  | cons keys rest ih =>
    intro items hi i h
    unfold citationsGo at h
    split_ifs at h with hmax
    · exact hi i h
    · dsimp only at h
      refine ih _ ?_ i h
      intro j hj
      rcases List.mem_append.mp hj with hj | hj
      · exact hi j hj
      · obtain ⟨key, _, rfl⟩ := List.mem_map.mp (List.mem_of_mem_take hj)
        rfl

/-- Claim C4: when the citation feature flag is set and the char prefix
contains the configured trigger, the reply is exactly the citation
provider's item list, every element of which has kind `reference` — no
word, snippet, unicode-input or path item is included. -/
theorem citations_exclusive (ctx : CompletionCtx) (uri : String) (line chr : Nat)
    (pre : Option String) (charsPrefix : String) (doc : Document)
    (hgp : get_prefix ctx.w ctx.settings.max_chars_prefix_len ctx.docs uri line chr
      = .ok (pre, some charsPrefix, doc))
    (hne : charsPrefix.isEmpty = false)
    (hfeat : ctx.settings.feature_citations = true)
    (htrig : strContains charsPrefix ctx.settings.citation_prefix_trigger = true) :
    completion_request ctx uri line chr
      = .items (citationsProvider ctx (pre.getD "")) ∧
    ∀ i ∈ citationsProvider ctx (pre.getD ""),
      i.kind = CompletionItemKind.reference := by
  have hnosp : (charsPrefix.data.head? == some ' ') = false := by
    cases hd : charsPrefix.data with
    | nil => rfl
    | cons a tl =>
      have hmem : a ∈ charsPrefix.data := by
        rw [hd]
        exact List.mem_cons_self a tl
      have hcc := get_prefix_char_class ctx.w ctx.settings.max_chars_prefix_len ctx.docs
        uri line chr pre (some charsPrefix) doc hgp charsPrefix rfl a hmem
      have hasp : a ≠ ' ' := by
        intro hsp
        rw [hsp] at hcc
        exact absurd hcc (by decide)
      simp [hasp]
  refine ⟨?_, citationsGo_kind ctx (pre.getD "") ctx.bibliographies [] (by simp)⟩
  unfold completion_request
  rw [hgp]
  dsimp only
  rw [if_neg (by simp [hne, hnosp]), if_pos (by simp [hfeat, htrig])]

/-- Witness for `citations_exclusive`: a markdown buffer `"@b"` with the
cursor after it, citations enabled, and one parsed bibliography with keys
`bob` and `alice` replies with exactly the `@bob` citation item. -/
theorem citations_exclusive_witness :
    completion_request
      { settings := { BackendSettings.default with feature_citations := true }
        snippets := []
        unicode_input := []
        docs := [⟨"file:///d.md", ['@', 'b'], "markdown"⟩]
        dirEntries := []
        bibliographies := [["bob", "alice"]]
        w := char_is_word
        cm := asciiCaselessMatch } "file:///d.md" 0 2
      = .items [{ label := "@bob", sortText := some "b", filterText := some "b",
                  kind := CompletionItemKind.reference }] :=
  ((citations_exclusive
      { settings := { BackendSettings.default with feature_citations := true }
        snippets := []
        unicode_input := []
        docs := [⟨"file:///d.md", ['@', 'b'], "markdown"⟩]
        dirEntries := []
        bibliographies := [["bob", "alice"]]
        w := char_is_word
        cm := asciiCaselessMatch } "file:///d.md" 0 2
      (some "b") "@b" ⟨"file:///d.md", ['@', 'b'], "markdown"⟩
      (by decide) (by decide) (by decide) (by decide)).1).trans (by decide)

/-! ## Dispatch behaviour of the completion request (claim C7). -/

/-- Claim C7: a failed prefix extraction replies with an error; a successful
extraction whose char prefix is empty — or would begin with whitespace, which
the extraction can in fact never produce — replies with an empty array; and a
successful extraction with an empty word prefix still replies with the merged
array, in which each char-prefix-based provider's output (unicode input,
paths, snippet-by-tail) appears whenever its feature flag is on and the
citation provider does not preempt the array. -/
theorem completion_request_prefix_spec (ctx : CompletionCtx) (uri : String)
    (line chr : Nat) :
    (∀ e, get_prefix ctx.w ctx.settings.max_chars_prefix_len ctx.docs uri line chr
        = .error e → completion_request ctx uri line chr = .err) ∧
    (∀ pre charsPrefix doc,
      get_prefix ctx.w ctx.settings.max_chars_prefix_len ctx.docs uri line chr
        = .ok (pre, some charsPrefix, doc) →
      ((charsPrefix.isEmpty = true ∨ charsPrefix.data.head? = some ' ' ∨
          charsPrefix.data.head? = some '\t' ∨ charsPrefix.data.head? = some '\n') →
        completion_request ctx uri line chr = .items []) ∧
      (pre = some "" → charsPrefix.isEmpty = false →
        (ctx.settings.feature_citations &&
          strContains charsPrefix ctx.settings.citation_prefix_trigger) = false →
        completion_request ctx uri line chr
          = .items (base_completion ctx (some "") charsPrefix doc) ∧
        (ctx.settings.feature_unicode_input = true →
          (unicode_input_provider ctx "" charsPrefix).Sublist
            (base_completion ctx (some "") charsPrefix doc)) ∧
        (ctx.settings.feature_paths = true →
          (pathsProvider ctx "" charsPrefix).Sublist
            (base_completion ctx (some "") charsPrefix doc)) ∧
        ((ctx.settings.feature_snippets &&
            ctx.settings.snippets_inline_by_word_tail) = true →
          (snippets_by_word_tail ctx doc charsPrefix).Sublist
            (base_completion ctx (some "") charsPrefix doc)))) := by
  constructor
  · intro e he
    unfold completion_request
    rw [he]
  · intro pre charsPrefix doc hok
    constructor
    · intro hws
      rcases hws with hemp | hsp | hsp | hsp
      · unfold completion_request
        rw [hok]
        dsimp only
        rw [if_pos (by simp [hemp])]
      all_goals
        exact absurd (get_prefix_head_char_class ctx.w ctx.settings.max_chars_prefix_len
          ctx.docs uri line chr pre charsPrefix doc hok _ hsp) (by decide)
    · intro hpre hne hcit
      subst hpre
      have hnosp : (charsPrefix.data.head? == some ' ') = false := by
        cases hd : charsPrefix.data.head? with
        | none => rfl
        | some c =>
          have hcc := get_prefix_head_char_class ctx.w ctx.settings.max_chars_prefix_len
            ctx.docs uri line chr (some "") charsPrefix doc hok c hd
          have hcsp : c ≠ ' ' := by
            intro hsp
            rw [hsp] at hcc
            exact absurd hcc (by decide)
          simp [hcsp]
      have hmain : completion_request ctx uri line chr
          = .items (base_completion ctx (some "") charsPrefix doc) := by
        unfold completion_request
        rw [hok]
        dsimp only
        rw [if_neg (by simp [hne, hnosp]), if_neg (by simp [hcit])]
      refine ⟨hmain, fun huni => ?_, fun hpath => ?_, fun hsn => ?_⟩
      · have h6 : unicode_segment ctx (some "") charsPrefix
            = unicode_input_provider ctx "" charsPrefix := by
          simp [unicode_segment, huni]
        rw [base_completion, ← h6]
        exact (List.sublist_append_right _ _).trans (List.sublist_append_left _ _)
      · have h7 : paths_segment ctx (some "") charsPrefix
            = pathsProvider ctx "" charsPrefix := by
          simp [paths_segment, hpath]
        rw [base_completion, ← h7]
        exact List.sublist_append_right _ _
      · obtain ⟨hfs, hin⟩ : ctx.settings.feature_snippets = true ∧
            ctx.settings.snippets_inline_by_word_tail = true := by
          simpa [Bool.and_eq_true] using hsn
        cases hfst : ctx.settings.snippets_first with
        | true =>
          have h1 : snippets_first_tail_segment ctx (some "") charsPrefix doc
              = snippets_by_word_tail ctx doc charsPrefix := by
            simp [snippets_first_tail_segment, hfs, hin, hfst, hne]
          rw [base_completion, ← h1]
          exact (((((List.sublist_append_left _ _).trans
            (List.sublist_append_left _ _)).trans
            (List.sublist_append_left _ _)).trans
            (List.sublist_append_left _ _)).trans
            (List.sublist_append_left _ _)).trans
            (List.sublist_append_left _ _)
        | false =>
          have h4 : snippets_last_tail_segment ctx (some "") charsPrefix doc
              = snippets_by_word_tail ctx doc charsPrefix := by
            simp [snippets_last_tail_segment, hfs, hin, hfst, hne]
          rw [base_completion, ← h4]
          exact (((List.sublist_append_right _ _).trans
            (List.sublist_append_left _ _)).trans
            (List.sublist_append_left _ _)).trans
            (List.sublist_append_left _ _)

/-- Witness for `completion_request_prefix_spec`: the cursor right after a
space yields an empty char prefix and an empty completion array. -/
theorem completion_request_prefix_spec_witness :
    completion_request
      { settings := BackendSettings.default
        snippets := []
        unicode_input := []
        docs := [⟨"file:///w.txt", ['a', ' '], "text"⟩]
        dirEntries := []
        bibliographies := []
        w := char_is_word
        cm := asciiCaselessMatch } "file:///w.txt" 0 2 = .items [] :=
  ((completion_request_prefix_spec
      { settings := BackendSettings.default
        snippets := []
        unicode_input := []
        docs := [⟨"file:///w.txt", ['a', ' '], "text"⟩]
        dirEntries := []
        bibliographies := []
        w := char_is_word
        cm := asciiCaselessMatch } "file:///w.txt" 0 2).2 (some "") ""
    ⟨"file:///w.txt", ['a', ' '], "text"⟩ (by decide)).1 (Or.inl (by decide))

/-! ## The global `max_completion_items` cap (claim C3).

Every single provider truncates its own output, but `base_completion` (the
chained iterators of the `CompletionRequest` arm) carries no final `take`;
with more than one provider enabled the merged array exceeds the cap. -/

/-- A backend state with `max_completion_items = 1` in which the snippet
provider and the unicode-input provider each contribute one item. -/
def ctxNoGlobalCap : CompletionCtx where
  settings := { BackendSettings.default with
    max_completion_items := 1
    feature_words := false
    feature_unicode_input := true }
  snippets := [⟨none, "ab", "B", none⟩]
  unicode_input := [⟨"ab", "α"⟩]
  docs := [⟨"file:///c.txt", ['a', 'b'], "text"⟩]
  dirEntries := []
  bibliographies := []
  w := char_is_word
  cm := asciiCaselessMatch

/-- Claim C3, counterexample: with `max_completion_items = 1`, one matching
snippet and one matching unicode-input entry, the reply holds two items —
the per-response cap claimed by the spec does not exist in the source. -/
theorem max_completion_items_not_global_counterexample :
    ctxNoGlobalCap.settings.max_completion_items = 1 ∧
    completion_request ctxNoGlobalCap "file:///c.txt" 0 2 = .items
      [{ label := "ab", sortText := some "ab", filterText := some "ab",
         kind := CompletionItemKind.snippet },
       { label := "α", sortText := some "00", filterText := some "abab",
         kind := CompletionItemKind.text }] := by
  decide

theorem searchLoop_le (w : Char → Bool) (cm : String → String → Bool)
    (pv : String) (text : List Char) (maxI : Nat) :
    ∀ (ms : List (Nat × Nat)) (res : List String), res.length < maxI →
      (searchLoop w cm pv text maxI ms res).length ≤ maxI := by
  intro ms
  induction ms with
  | nil =>
    intro res h
    exact h.le
  | cons m rest ih =>
    obtain ⟨s, e⟩ := m
    intro res hres
    by_cases hA : text.length < s ∨ text.length < e
    · rw [searchLoop, if_pos hA]
      exact ih res hres
    · rw [searchLoop, if_neg hA]
      by_cases hB : (decide (0 < s) && (match text.get? (s - 1) with
          | none => true
          | some ch => w ch)) = true
      · rw [if_pos hB]
        exact ih res hres
      · rw [if_neg hB]
        try dsimp only
        set k := ((text.drop e).takeWhile w).length with hk
        by_cases hguard : (String.mk ((text.take (e + k)).drop s) ≠ pv ∧
            starts_with cm (String.mk ((text.take (e + k)).drop s)) pv = true)
        · rw [if_pos hguard]
          set res' := if res.contains (String.mk ((text.take (e + k)).drop s))
            then res else res ++ [String.mk ((text.take (e + k)).drop s)] with hresd
          have hlen : res'.length ≤ res.length + 1 := by
            rw [hresd]
            split_ifs <;> simp
          split_ifs with hmax
          · omega
          · exact ih res' (by omega)
        · rw [if_neg hguard]
          exact ih res hres

theorem completionWordsGo_le (ctx : CompletionCtx) (pre : String) :
    ∀ (ds : List Document) (res : List String),
      res.length < ctx.settings.max_completion_items →
      (completionWordsGo ctx pre ds res).length
        ≤ ctx.settings.max_completion_items := by
  intro ds
  induction ds with
  | nil =>
    intro res h
    exact h.le
  | cons d rest ih =>
    intro res hres
    rw [completionWordsGo]
    try dsimp only
    have h1 : (search ctx.w ctx.cm pre d.text ctx.settings.max_completion_items
        res).length ≤ ctx.settings.max_completion_items :=
      searchLoop_le _ _ _ _ _ _ res hres
    split_ifs with hmax
    · exact h1
    · exact ih _ (by omega)

theorem completionWords_le (ctx : CompletionCtx) (pre : String) (doc : Document)
    (hmax : 1 ≤ ctx.settings.max_completion_items) :
    (completionWords ctx pre doc).length ≤ ctx.settings.max_completion_items := by
  unfold completionWords
  dsimp only
  have h1 : (search ctx.w ctx.cm pre doc.text ctx.settings.max_completion_items
      []).length ≤ ctx.settings.max_completion_items :=
    searchLoop_le _ _ _ _ _ _ [] (by simpa using hmax)
  split_ifs with h
  · exact h1
  · exact completionWordsGo_le ctx pre _ _ (by omega)

theorem snippetsProvider_le (ctx : CompletionCtx) (pre f : String) (e : Bool)
    (doc : Document) :
    (snippetsProvider ctx pre f e doc).length
      ≤ ctx.settings.max_completion_items := by
  unfold snippetsProvider
  exact List.length_take_le _ _

theorem snippetsByWordTailGo_lt (ctx : CompletionCtx) (doc : Document)
    (cp : String) :
    ∀ (idxs : List Nat) (acc : List CompletionItem),
      acc.length < ctx.settings.max_completion_items →
      (snippetsByWordTailGo ctx doc cp idxs acc).length
        < 2 * ctx.settings.max_completion_items := by
  intro idxs
  induction idxs with
  | nil =>
    intro acc h
    have : (snippetsByWordTailGo ctx doc cp [] acc) = acc := rfl
    rw [this]
    omega
  | cons i rest ih =>
    intro acc hacc
    rw [snippetsByWordTailGo]
    cases hbs : byteSuffix cp i with
    | none => exact ih acc hacc
    | some part =>
      try dsimp only
      by_cases h1 : part.isEmpty = true
      · rw [if_pos h1]
        omega
      · rw [if_neg h1]
        by_cases h2 : ctx.max_snippet_input_prefix_len < part.utf8ByteSize
        · rw [if_pos h2]
          exact ih acc hacc
        · rw [if_neg h2]
          by_cases h3 : part.utf8ByteSize < ctx.settings.min_chars_prefix_len
          · rw [if_pos h3]
            omega
          · rw [if_neg h3]
            try dsimp only
            have hlen : (acc ++ snippetsProvider ctx part cp false doc).length
                ≤ acc.length + ctx.settings.max_completion_items := by
              have := snippetsProvider_le ctx part cp false doc
              simp only [List.length_append]
              omega
            split_ifs with hmax2
            · omega
            · exact ih _ (by omega)

theorem unicodeInputGo_le (ctx : CompletionCtx) (wp cp : String) :
    ∀ (idxs : List Nat) (acc : List CompletionItem),
      acc.length ≤ ctx.settings.max_completion_items →
      (unicodeInputGo ctx wp cp idxs acc).length
        ≤ ctx.settings.max_completion_items := by
  intro idxs
  induction idxs with
  | nil =>
    intro acc h
    exact h
  | cons i rest ih =>
    intro acc hacc
    rw [unicodeInputGo]
    cases hbs : byteSuffix cp i with
    | none => exact ih acc hacc
    | some part =>
      try dsimp only
      by_cases h1 : part.isEmpty = true
      · rw [if_pos h1]
        exact hacc
      · rw [if_neg h1]
        by_cases h2 : ctx.max_unicode_input_prefix_len < part.utf8ByteSize
        · rw [if_pos h2]
          exact ih acc hacc
        · rw [if_neg h2]
          by_cases h3 : part.utf8ByteSize < ctx.settings.min_chars_prefix_len
          · rw [if_pos h3]
            exact hacc
          · rw [if_neg h3]
            try dsimp only
            have hlen : (acc ++ (((ctx.unicode_input.filter fun s =>
                starts_with ctx.cm s.prefixVal part).map fun s =>
                { label := s.body
                  filterText := some (wp ++ s.prefixVal)
                  sortText := none
                  kind := CompletionItemKind.text : CompletionItem }).take
                (ctx.settings.max_completion_items - acc.length))).length
                ≤ ctx.settings.max_completion_items := by
              simp only [List.length_append]
              have := List.length_take_le
                (ctx.settings.max_completion_items - acc.length)
                ((ctx.unicode_input.filter fun s =>
                  starts_with ctx.cm s.prefixVal part).map fun s =>
                  { label := s.body
                    filterText := some (wp ++ s.prefixVal)
                    sortText := none
                    kind := CompletionItemKind.text : CompletionItem })
              omega
            split_ifs with hmax2
            · exact hlen
            · exact ih _ hlen

theorem unicode_input_provider_le (ctx : CompletionCtx) (wp cp : String) :
    (unicode_input_provider ctx wp cp).length
      ≤ ctx.settings.max_completion_items := by
  unfold unicode_input_provider
  rw [List.length_map, List.enum_length]
  exact unicodeInputGo_le ctx wp cp _ [] (by simp)

theorem pathsProvider_le (ctx : CompletionCtx) (wp cp : String) :
    (pathsProvider ctx wp cp).length ≤ ctx.settings.max_completion_items := by
  unfold pathsProvider
  split_ifs
  all_goals
    cases cp.data.head? <;>
      first
        | simp
        | exact List.length_take_le _ _

theorem citationsGo_le (ctx : CompletionCtx) (wp : String) :
    ∀ (bibs : List (List String)) (items : List CompletionItem),
      items.length ≤ ctx.settings.max_completion_items →
      (citationsGo ctx wp bibs items).length
        ≤ ctx.settings.max_completion_items := by
  intro bibs
  induction bibs with
  | nil =>
    intro items h
    exact h
  | cons keys rest ih =>
    intro items hitems
    rw [citationsGo]
    split_ifs with hmax
    · exact hitems
    · dsimp only
      refine ih _ ?_
      simp only [List.length_append]
      have := List.length_take_le (ctx.settings.max_completion_items - items.length)
        ((keys.filter fun key => starts_with ctx.cm key wp).map fun key =>
          { label := "@" ++ key
            sortText := some wp
            filterText := some wp
            kind := CompletionItemKind.reference : CompletionItem })
      omega

theorem citationsProvider_le (ctx : CompletionCtx) (wp : String) :
    (citationsProvider ctx wp).length ≤ ctx.settings.max_completion_items :=
  citationsGo_le ctx wp ctx.bibliographies [] (by simp)

theorem snippet_segments_le (ctx : CompletionCtx) (pre : Option String)
    (cp : String) (doc : Document)
    (hmax : 1 ≤ ctx.settings.max_completion_items) :
    (snippets_first_tail_segment ctx pre cp doc).length
      + (snippets_first_exact_segment ctx pre doc).length
      + (snippets_last_tail_segment ctx pre cp doc).length
      + (snippets_last_exact_segment ctx pre doc).length
      ≤ 2 * ctx.settings.max_completion_items - 1 := by
  have htail : (snippets_by_word_tail ctx doc cp).length
      < 2 * ctx.settings.max_completion_items :=
    snippetsByWordTailGo_lt ctx doc cp _ [] (by simpa using hmax)
  have hex : ∀ (p : String) (e : Bool), (snippetsProvider ctx p "" e doc).length
      ≤ ctx.settings.max_completion_items := fun p e => snippetsProvider_le ctx p "" e doc
  unfold snippets_first_tail_segment snippets_first_exact_segment
    snippets_last_tail_segment snippets_last_exact_segment
  cases hfs : ctx.settings.feature_snippets <;>
    cases hin : ctx.settings.snippets_inline_by_word_tail <;>
      cases hfst : ctx.settings.snippets_first <;>
        cases pre <;>
          try dsimp only
  all_goals try simp only [List.length_nil]
  all_goals try omega
  all_goals try split_ifs
  all_goals try simp only [List.length_nil]
  all_goals try omega
  all_goals
    first
      | (have ht := htail; omega)
      | (rename_i p _; have he1 := hex p true; have he2 := hex p false; omega)

/-- Claim C3 (amended): there is no global cap — see the counterexample —
but each provider's contribution is individually truncated: words, exact
snippets, unicode input, paths and citations each at
`max_completion_items`, snippet-by-tail below twice that; hence for every
state with a positive cap, every successful reply holds fewer than five
times `max_completion_items` items. -/
theorem completion_request_items_bound (ctx : CompletionCtx) (uri : String)
    (line chr : Nat) (hmax : 1 ≤ ctx.settings.max_completion_items)
    (xs : List CompletionItem)
    (h : completion_request ctx uri line chr = .items xs) :
    xs.length ≤ 5 * ctx.settings.max_completion_items := by
  unfold completion_request at h
  cases hg : get_prefix ctx.w ctx.settings.max_chars_prefix_len ctx.docs uri line chr with
  | error e =>
    rw [hg] at h
    exact CompletionReply.noConfusion h
  | ok t =>
    obtain ⟨pre, cpOpt, doc⟩ := t
    rw [hg] at h
    dsimp only at h
    cases cpOpt with
    | none => exact CompletionReply.noConfusion h
    | some cp =>
      dsimp only at h
      split_ifs at h with h1 h2
      · injection h with h'
        rw [← h']
        simp
      · injection h with h'
        rw [← h']
        have := citationsProvider_le ctx (pre.getD "")
        omega
      · injection h with h'
        have hs := snippet_segments_le ctx pre cp doc hmax
        have hw : (words_segment ctx pre doc).length
            ≤ ctx.settings.max_completion_items := by
          unfold words_segment
          cases pre with
          | none => simp
          | some p =>
            dsimp only
            split_ifs
            · simpa [wordsProvider] using completionWords_le ctx p doc hmax
            · simp
        have hu : (unicode_segment ctx pre cp).length
            ≤ ctx.settings.max_completion_items := by
          unfold unicode_segment
          split_ifs
          · exact unicode_input_provider_le ctx (pre.getD "") cp
          · simp
        have hpth : (paths_segment ctx pre cp).length
            ≤ ctx.settings.max_completion_items := by
          unfold paths_segment
          split_ifs
          · exact pathsProvider_le ctx (pre.getD "") cp
          · simp
        rw [← h']
        simp only [base_completion, List.length_append]
        omega

/-- Witness for `completion_request_items_bound` on a state whose reply is
the empty array. -/
theorem completion_request_items_bound_witness :
    ([] : List CompletionItem).length ≤ 5 * (100 : Nat) :=
  completion_request_items_bound
    { settings := BackendSettings.default
      snippets := []
      unicode_input := []
      docs := [⟨"file:///e.txt", ['a', ' '], "text"⟩]
      dirEntries := []
      bibliographies := []
      w := char_is_word
      cm := asciiCaselessMatch } "file:///e.txt" 0 2 (by decide) [] (by decide)

end SCLS
